import Mathlib

/-!
Verification of the navigation engine of the `noice` terminal directory
browser (src/noice.c) against its natural-language specification.

The C code is shallowly embedded: C strings become `List Char`, the global
browse context (`path`, `oldpath`, `fltr`, `dents`, `n`, `cur`) becomes the
structure `BState`, the filesystem and the POSIX regex engine become
explicit functional parameters (`FS`, and a compile function
`R : Str -> Option (Str -> Bool)`), and each `SEL_*` case of the `browse`
input loop becomes a pure transition function on `BState`.
-/

namespace Noice

/-- A C string (NUL-free byte/character sequence). -/
abbrev Str := List Char

/-- File type, the `S_IFMT` part of `mode_t`. -/
inductive FType
  | dir
  | reg
  | lnk
  | sock
  | fifo
  | blk
  | chr
deriving DecidableEq, Repr

/-- The fields of `mode_t` that noice inspects: the file type and the
`S_IXUSR` owner-executable bit. -/
structure Mode where
  ftype : FType
  xusr : Bool
deriving DecidableEq, Repr

/-- Result of a `stat`-family call: mode, modification time, size. -/
structure Stat where
  mode : Mode
  t : Int
  size : Nat
deriving DecidableEq, Repr

/-- `struct entry` of noice.c: name, mode, mtime, size. -/
structure Entry where
  name : Str
  mode : Mode
  t : Int
  size : Nat
deriving DecidableEq, Repr

/-- The filesystem as seen through the OS calls noice makes:
`listing p` is the `readdir` sequence of directory `p` (`none` when
`opendir` fails, which is also the `canopendir` test), `lstatOf` is the
non-following `lstat` used by `dentfill` (total: noice aborts if it fails),
and `fstatOf` is the following `open`+`fstat` used by `SEL_GOIN`
(`none` when the open or stat fails). -/
structure FS where
  listing : Str → Option (List Str)
  lstatOf : Str → Stat
  fstatOf : Str → Option Stat

/-- `filemode` of noice.c: the display/classification character of a mode.
The NUL character (`Char.ofNat 0`) is C `cm = 0`. -/
def filemode (m : Mode) : Char :=
  if m.ftype = FType.dir then '/'
  else if m.ftype = FType.lnk then '@'
  else if m.ftype = FType.sock then '='
  else if m.ftype = FType.fifo then '|'
  else if m.xusr then '*'
  else Char.ofNat 0

/-- The `filemode(sb.st_mode) == 0 | filemode(sb.st_mode) == '*'` test of
`dentfill` (and of `printent`): the entry is classified as plain/regular
(no suffix character) or executable. -/
def regOrExec (m : Mode) : Bool :=
  filemode m == Char.ofNat 0 || filemode m == '*'

/-- `mkpath` of noice.c: join `dir` and `name`, where an absolute `name`
overrides `dir` and the root directory gets no duplicate separator. -/
def mkpath (dir name : Str) : Str :=
  if name.head? = some '/' then name
  else if dir = ['/'] then '/' :: name
  else dir ++ '/' :: name

/-- `strcmp`, sign-faithful: 0 for equal strings, the difference of the
first differing characters otherwise, with the NUL terminator comparing
below every character (a proper prefix is smaller). -/
def strcmp : Str → Str → Int
  | [], [] => 0
  | [], _ :: _ => -1
  | _ :: _, [] => 1
  | a :: as, b :: bs => if a = b then strcmp as bs else (a.toNat : Int) - (b.toNat : Int)

/-- Conversion of a 64-bit `time_t` difference to a C `int`:
truncation to 32 bits, two's complement. -/
def ctoi (x : Int) : Int := (x + 2 ^ 31) % 2 ^ 32 - 2 ^ 31

/-- `entrycmp` of noice.c: `b->t - a->t` (as `int`) under mtime order,
`strcmp(a->name, b->name)` under name order. -/
def entrycmp (mtimeorder : Bool) (a b : Entry) : Int :=
  if mtimeorder then ctoi (b.t - a.t) else strcmp a.name b.name

/-- Insert one element into a comparator-sorted list (helper of the
`qsort` model). -/
def csInsert (cmp : Entry → Entry → Int) (a : Entry) : List Entry → List Entry
  | [] => [a]
  | b :: bs => if cmp a b ≤ 0 then a :: b :: bs else b :: csInsert cmp a bs

/-- Model of `qsort(dents, n, sizeof *dents, entrycmp)`: a stable
insertion sort; any qsort produces some comparator-ordered permutation,
and this is one of them. -/
def csort (cmp : Entry → Entry → Int) : List Entry → List Entry
  | [] => []
  | a :: as => csInsert cmp a (csort cmp as)

/-- The body of the `readdir` loop of `dentfill`: skip `.` and `..`, skip
names rejected by the filter, `lstat` the joined path and record the
entry. -/
def dentfillEntries (fs : FS) (path : Str) (pred : Str → Bool) : List Str → List Entry
  | [] => []
  | nm :: rest =>
    if nm = ['.'] ∨ nm = ['.', '.'] then dentfillEntries fs path pred rest
    else if pred nm = false then dentfillEntries fs path pred rest
    else
      (⟨nm, (fs.lstatOf (mkpath path nm)).mode, (fs.lstatOf (mkpath path nm)).t,
        (fs.lstatOf (mkpath path nm)).size⟩ : Entry) :: dentfillEntries fs path pred rest

/-- The `totalsize` accumulation of the same loop: sizes of entries whose
`filemode` is 0 or `*`. `totalsize` is a C `unsigned long`, so every
`totalsize += sb.st_size` wraps modulo `2 ^ 64`. -/
def dentfillTotal (fs : FS) (path : Str) (pred : Str → Bool) : List Str → Nat
  | [] => 0
  | nm :: rest =>
    if nm = ['.'] ∨ nm = ['.', '.'] then dentfillTotal fs path pred rest
    else if pred nm = false then dentfillTotal fs path pred rest
    else
      if regOrExec (fs.lstatOf (mkpath path nm)).mode
      then ((fs.lstatOf (mkpath path nm)).size + dentfillTotal fs path pred rest) % 2 ^ 64
      else dentfillTotal fs path pred rest

/-- `dentfill` of noice.c (entry list part): empty on `opendir` failure. -/
def dentfill (fs : FS) (path : Str) (pred : Str → Bool) : List Entry :=
  match fs.listing path with
  | none => []
  | some ns => dentfillEntries fs path pred ns

/-- `dentfill` of noice.c (`totalsize` part, `unsigned long` wraparound
included): 0 on `opendir` failure. -/
def dentfillSize (fs : FS) (path : Str) (pred : Str → Bool) : Nat :=
  match fs.listing path with
  | none => 0
  | some ns => dentfillTotal fs path pred ns

/-- The scan loop of `dentfind`, with `i` the index of the head of the
remaining list; returns 0 when the scan falls off the end. -/
def dentfindGo (cwd target : Str) : List Entry → Nat → Nat
  | [], _ => 0
  | e :: es, i => if mkpath cwd e.name = target then i else dentfindGo cwd target es (i + 1)

/-- `dentfind` of noice.c: position of the first entry whose joined path
equals `target`, 0 when `target` is NULL or nothing matches. -/
def dentfind (dents : List Entry) (cwd : Str) (target : Option Str) : Nat :=
  match target with
  | none => 0
  | some t => dentfindGo cwd t dents 0

/-- The global browse context of noice.c: `path`, `fltr`, `oldpath`,
`dents`/`n`, `cur`. `cur` is a C `int`, hence `Int`. -/
structure BState where
  path : Str
  fltr : Str
  oldpath : Option Str
  dents : List Entry
  cur : Int
deriving DecidableEq, Repr

/-- Length of the entry list as a C `int` (the global `n`). -/
def nlen (s : BState) : Int := (s.dents.length : Int)

/-- Placeholder entry for the (undefined-behavior) out-of-range C read. -/
def dfltEntry : Entry := ⟨[], ⟨FType.reg, false⟩, 0, 0⟩

/-- `dents[cur].name`. -/
def curName (s : BState) : Str := (s.dents.getD s.cur.toNat dfltEntry).name

/-- `populate` of noice.c, parametrized by the regex engine `R`
(`setfilter` succeeds iff `R` returns a matcher) and the filesystem:
check `canopendir(path)`, compile the filter, rebuild and sort the entry
list, restore `cur` from `oldpath` via `dentfind`, clear `oldpath`.
`none` is the `-1` failure return (state unchanged). -/
def populate (R : Str → Option (Str → Bool)) (fs : FS) (mt : Bool) (s : BState) :
    Option BState :=
  match fs.listing s.path with
  | none => none
  | some _ =>
    match R s.fltr with
    | none => none
    | some pred =>
      let l := csort (entrycmp mt) (dentfill fs s.path pred)
      some { s with
               dents := l
               cur := ((dentfind l s.path s.oldpath : Nat) : Int)
               oldpath := none }

/-- `goto begin`: run `populate`; on failure print a warning and keep the
(already partially mutated) state. -/
def gotoBegin (R : Str → Option (Str → Bool)) (fs : FS) (mt : Bool) (s : BState) : BState :=
  (populate R fs mt s).getD s

/-- `SEL_NEXT`. -/
def selNext (s : BState) : BState :=
  if s.cur < nlen s - 1 then { s with cur := s.cur + 1 } else s

/-- `SEL_PREV`. -/
def selPrev (s : BState) : BState :=
  if 0 < s.cur then { s with cur := s.cur - 1 } else s

/-- The page span `(LINES - 4) / 2` (C integer division truncates
toward zero). -/
def pgspan (lines : Int) : Int := Int.tdiv (lines - 4) 2

/-- `SEL_PGDN`. -/
def selPgdn (lines : Int) (s : BState) : BState :=
  if s.cur < nlen s - 1
  then { s with cur := s.cur + min (pgspan lines) (nlen s - 1 - s.cur) } else s

/-- `SEL_PGUP`. -/
def selPgup (lines : Int) (s : BState) : BState :=
  if 0 < s.cur then { s with cur := s.cur - min (pgspan lines) s.cur } else s

/-- `SEL_HOME`. -/
def selHome (s : BState) : BState := { s with cur := 0 }

/-- `SEL_END`: `cur = n - 1`, unconditionally. -/
def selEnd (s : BState) : BState := { s with cur := nlen s - 1 }

/-- `SEL_FLTR`: read a replacement filter (`inp`, `none` = empty input),
fall back to the initial filter on empty input, reject it if it does not
compile (state unchanged, no repopulation), otherwise install it, remember
the selected path in `oldpath` when the list is non-empty, and repopulate.
The boolean reports whether repopulation was triggered. -/
def selFltr (R : Str → Option (Str → Bool)) (fs : FS) (mt : Bool) (ifilter : Str)
    (inp : Option Str) (s : BState) : BState × Bool :=
  let tmp := inp.getD ifilter
  match R tmp with
  | none => (s, false)
  | some _ =>
    let s1 := { s with
                  fltr := tmp
                  oldpath := if 0 < s.dents.length
                             then some (mkpath s.path (curName s)) else s.oldpath }
    (gotoBegin R fs mt s1, true)

/-- `SEL_CD`: read a target (`none` = empty input, silently ignored),
join it to the current path, verify it is openable, replace the path
outright (`oldpath` untouched), reset the filter and repopulate. -/
def selCd (R : Str → Option (Str → Bool)) (fs : FS) (mt : Bool) (ifilter : Str)
    (inp : Option Str) (s : BState) : BState × Bool :=
  match inp with
  | none => (s, false)
  | some tmp =>
    let newpath := mkpath s.path tmp
    if (fs.listing newpath).isNone then (s, false)
    else (gotoBegin R fs mt { s with path := newpath, fltr := ifilter }, true)

/-- `SEL_CDHOME`: like `SEL_CD` with `$HOME` as the target, but pushing
the current path into `oldpath` before switching. -/
def selCdHome (R : Str → Option (Str → Bool)) (fs : FS) (mt : Bool) (ifilter : Str)
    (home : Option Str) (s : BState) : BState × Bool :=
  match home with
  | none => (s, false)
  | some h =>
    let newpath := mkpath s.path h
    if (fs.listing newpath).isNone then (s, false)
    else (gotoBegin R fs mt
           { s with path := newpath, fltr := ifilter, oldpath := some s.path }, true)

/-- The filter swap of `SEL_TOGGLEDOT`: back to the initial filter when a
different filter is active, otherwise to the show-everything pattern. -/
def toggleFltr (ifilter fltr : Str) : Str :=
  if fltr ≠ ifilter then ifilter else ['.']

/-- `SEL_TOGGLEDOT`: swap the filter and repopulate, without touching
`oldpath`. -/
def selToggledot (R : Str → Option (Str → Bool)) (fs : FS) (mt : Bool) (ifilter : Str)
    (s : BState) : BState :=
  gotoBegin R fs mt { s with fltr := toggleFltr ifilter s.fltr }

/-- `dirname(3)` (POSIX), as used through `xdirname`. -/
def dropTrailing (c : Char) (l : Str) : Str :=
  (l.reverse.dropWhile (fun x => x = c)).reverse

/-- The last-component drop of `dirname(3)`: strip the final component
and the separators before it. -/
def dropLastComp (l1 : Str) : Str :=
  dropTrailing '/' ((l1.reverse.dropWhile (fun x => x ≠ '/')).reverse)

/-- `dirname(3)` (POSIX): strip trailing slashes, drop the last path
component, strip the separators before it; `/` for an all-slash path and
`.` for an empty or separator-free one. -/
def dirnameStr (l : Str) : Str :=
  if dropTrailing '/' l = [] then (if l = [] then ['.'] else ['/'])
  else if '/' ∉ dropTrailing '/' l then ['.']
  else if dropLastComp (dropTrailing '/' l) = [] then ['/']
  else dropLastComp (dropTrailing '/' l)

/-- `SEL_GOIN`, restricted to its state effect: no-op on an empty list;
resolve the selected path, re-classify it via `open`+`fstat`; descend into
an openable directory (resetting the filter, not touching `oldpath`);
for a regular file spawn the associated program (no state change); report
and stay otherwise. -/
def selGoin (R : Str → Option (Str → Bool)) (fs : FS) (mt : Bool) (ifilter : Str)
    (s : BState) : BState :=
  if s.dents.length = 0 then s
  else
    let newpath := mkpath s.path (curName s)
    match fs.fstatOf newpath with
    | none => s
    | some st =>
      match st.mode.ftype with
      | FType.dir =>
        if (fs.listing newpath).isNone then s
        else gotoBegin R fs mt { s with path := newpath, fltr := ifilter }
      | _ => s

/-- `SEL_BACK`: no-op at `/`, `.` or a separator-free path; otherwise
compute the parent, verify it is openable, push the current path into
`oldpath`, move to the parent, reset the filter and repopulate. -/
def selBack (R : Str → Option (Str → Bool)) (fs : FS) (mt : Bool) (ifilter : Str)
    (s : BState) : BState :=
  if s.path = ['/'] ∨ s.path = ['.'] ∨ '/' ∉ s.path then s
  else
    let dir := dirnameStr s.path
    if (fs.listing dir).isNone then s
    else gotoBegin R fs mt { s with path := dir, fltr := ifilter, oldpath := some s.path }

/-! Concrete fixtures used to evaluate the theorems on explicit inputs. -/

/-- A regex engine for concrete runs: compilation fails exactly on the
ill-formed pattern `(`, and every well-formed pattern matches every
name. -/
def wMatchAll : Str → Option (Str → Bool) :=
  fun f => if f = ['('] then none else some (fun _ => true)

/-- Shorthand stat constructor. -/
def wStat (ft : FType) (x : Bool) (t : Int) (sz : Nat) : Stat := ⟨⟨ft, x⟩, t, sz⟩

/-- A small filesystem: directory `/d` holding subdirectory `sub` and
regular file `a`. -/
def wFS : FS :=
  { listing := fun p =>
      if p = "/d".data then some ["sub".data, "a".data]
      else if p = "/d/sub".data then some []
      else none
    lstatOf := fun p =>
      if p = "/d/sub".data then wStat FType.dir false 3 0
      else wStat FType.reg false 5 10
    fstatOf := fun p =>
      if p = "/d/sub".data then some (wStat FType.dir false 3 0) else none }

/-- Browse state sitting in `/d` before any population. -/
def wS : BState := ⟨"/d".data, ['.'], none, [], 0⟩

/-- Browse state with an empty entry list. -/
def wEmpty : BState := ⟨['/'], ['.'], none, [], 0⟩

/-- A filesystem whose directory `/b` holds two regular files of
`2 ^ 63` bytes each, enough to overflow the `unsigned long` size
total. -/
def wFSBig : FS :=
  { listing := fun p => if p = "/b".data then some ["f1".data, "f2".data] else none
    lstatOf := fun _ => wStat FType.reg false 0 (2 ^ 63)
    fstatOf := fun _ => none }

/-- A filesystem whose directory `/t` holds two regular files with the
same modification time. -/
def wFSTie : FS :=
  { listing := fun p => if p = "/t".data then some ["a".data, "b".data] else none
    lstatOf := fun _ => wStat FType.reg false 0 0
    fstatOf := fun _ => none }

/-- Browse state sitting in `/t` before any population. -/
def wSTie : BState := ⟨"/t".data, ['.'], none, [], 0⟩

/-- Browse state in `/d` with a custom (non-default) filter `x` active. -/
def wS7 : BState := ⟨"/d".data, "x".data, none, [], 0⟩

/-- Browse state sitting in `/d` with its populated listing and the
cursor on the subdirectory `sub`. -/
def wGo : BState :=
  ⟨"/d".data, ['.'], none,
    [⟨"sub".data, ⟨FType.dir, false⟩, 3, 0⟩, ⟨"a".data, ⟨FType.reg, false⟩, 5, 10⟩], 0⟩

/-- Browse state with a one-entry list, for concrete movement runs. -/
def wMv : BState :=
  ⟨"/d".data, ['.'], none, [⟨"a".data, ⟨FType.reg, false⟩, 5, 10⟩], 0⟩

/-- Frame and clamping property of one cursor-movement action: everything
but the cursor is untouched, the cursor stays a valid index on a
non-empty list and stays 0 on an empty one, and no repopulation happens
(the entry list is carried over unchanged, never rebuilt). -/
def moveOk (s t : BState) : Prop :=
  t.path = s.path ∧ t.fltr = s.fltr ∧ t.oldpath = s.oldpath ∧ t.dents = s.dents ∧
  0 ≤ t.cur ∧ (t.dents ≠ [] → t.cur < nlen t) ∧ (t.dents = [] → t.cur = 0)

/-! Helper lemmas about `dentfind`. -/

/-- A scan over entries none of which joins to the target returns 0. -/
theorem dentfindGo_eq_zero (cwd target : Str) (L : List Entry) (i : Nat)
    (h : ∀ e ∈ L, mkpath cwd e.name ≠ target) : dentfindGo cwd target L i = 0 := by
  induction L generalizing i with
  | nil => rfl
  | cons e es ih =>
    simp only [dentfindGo]
    rw [if_neg (h e (List.mem_cons_self e es))]
    exact ih (i + 1) (fun x hx => h x (List.mem_cons_of_mem _ hx))

/-- A scan over entries one of which joins to the target returns the
offset of the first such entry. -/
theorem dentfindGo_found (cwd target : Str) (L : List Entry)
    (h : ∃ e ∈ L, mkpath cwd e.name = target) (i : Nat) :
    ∃ j, ∃ hj : j < L.length, dentfindGo cwd target L i = i + j ∧
      mkpath cwd (L.get ⟨j, hj⟩).name = target ∧
      ∀ k (hk : k < L.length), k < j → mkpath cwd (L.get ⟨k, hk⟩).name ≠ target := by
  induction L generalizing i with
  | nil => simp at h
  | cons e es ih =>
    by_cases he : mkpath cwd e.name = target
    · refine ⟨0, by simp, ?_, by simpa using he, ?_⟩
      · simp [dentfindGo, he]
      · intro k hk hk0; omega
    · have h' : ∃ x ∈ es, mkpath cwd x.name = target := by
        rcases h with ⟨x, hx, hxe⟩
        rcases List.mem_cons.mp hx with rfl | hxs
        · exact absurd hxe he
        · exact ⟨x, hxs, hxe⟩
      obtain ⟨j, hj, hgo, hget, hfirst⟩ := ih h' (i + 1)
      refine ⟨j + 1, by simpa using Nat.succ_lt_succ hj, ?_, ?_, ?_⟩
      · simp only [dentfindGo]
        rw [if_neg he, hgo]
        omega
      · simpa using hget
      · intro k hk hklt
        cases k with
        | zero => simpa using he
        | succ k' =>
          have hk' : k' < es.length := by simpa using hk
          have := hfirst k' hk' (by omega)
          simpa using this

/-- `dentfind` with a NULL target is 0. -/
theorem dentfind_none (dents : List Entry) (cwd : Str) : dentfind dents cwd none = 0 := rfl

/-- `dentfind` on a non-empty list is a valid index. -/
theorem dentfind_lt_length (dents : List Entry) (cwd : Str) (op : Option Str)
    (h : dents ≠ []) : dentfind dents cwd op < dents.length := by
  have hlen : 0 < dents.length := List.length_pos.mpr h
  cases op with
  | none => simpa [dentfind] using hlen
  | some t =>
    by_cases hex : ∃ e ∈ dents, mkpath cwd e.name = t
    · obtain ⟨j, hj, hgo, _, _⟩ := dentfindGo_found cwd t dents hex 0
      simp only [dentfind, hgo]
      omega
    · push_neg at hex
      simpa [dentfind, dentfindGo_eq_zero cwd t dents 0 hex] using hlen

/-- Inversion of a successful `populate`. -/
theorem populate_inv {R : Str → Option (Str → Bool)} {fs : FS} {mt : Bool} {s t : BState}
    (h : populate R fs mt s = some t) :
    ∃ pred, R s.fltr = some pred ∧ (fs.listing s.path).isSome ∧
      t.dents = csort (entrycmp mt) (dentfill fs s.path pred) ∧
      t.cur = ((dentfind t.dents s.path s.oldpath : Nat) : Int) ∧
      t.oldpath = none ∧ t.path = s.path ∧ t.fltr = s.fltr := by
  unfold populate at h
  cases hl : fs.listing s.path with
  | none => rw [hl] at h; exact absurd h (by simp)
  | some ns =>
    rw [hl] at h
    cases hR : R s.fltr with
    | none => rw [hR] at h; exact absurd h (by simp)
    | some pred =>
      rw [hR] at h
      simp only [Option.some.injEq] at h
      subst h
      exact ⟨pred, rfl, by simp [hl], rfl, rfl, rfl, rfl, rfl⟩

/-- Claim C1: `dentfind` returns 0 on a NULL target and when no entry
joins to the target, returns the position of the (first) entry whose
joined path equals the target, and after a successful `populate` the
cursor is 0 on an empty list and a valid index otherwise. -/
theorem claim1_populate_cursor_dentfind
    (R : Str → Option (Str → Bool)) (fs : FS) (mt : Bool) (s t : BState)
    (hpop : populate R fs mt s = some t)
    (dents : List Entry) (cwd tgt : Str) :
    dentfind dents cwd none = 0
    ∧ ((∀ e ∈ dents, mkpath cwd e.name ≠ tgt) → dentfind dents cwd (some tgt) = 0)
    ∧ (∀ j (hj : j < dents.length),
        mkpath cwd (dents.get ⟨j, hj⟩).name = tgt →
        (∀ k (hk : k < dents.length), k < j → mkpath cwd (dents.get ⟨k, hk⟩).name ≠ tgt) →
        dentfind dents cwd (some tgt) = j)
    ∧ 0 ≤ t.cur
    ∧ (t.dents = [] → t.cur = 0)
    ∧ (t.dents ≠ [] → t.cur < nlen t) := by
  obtain ⟨pred, hR, hlist, hdents, hcur, hop, hpath, hfltr⟩ := populate_inv hpop
  refine ⟨rfl, ?_, ?_, ?_, ?_, ?_⟩
  · intro h
    simp [dentfind, dentfindGo_eq_zero cwd tgt dents 0 h]
  · intro j hj hmatch hfirst
    have hex : ∃ e ∈ dents, mkpath cwd e.name = tgt :=
      ⟨dents.get ⟨j, hj⟩, List.get_mem dents j hj, hmatch⟩
    obtain ⟨j2, hj2, hgo, hget2, hfirst2⟩ := dentfindGo_found cwd tgt dents hex 0
    have h1 : ¬ j2 < j := fun hlt => hfirst j2 hj2 hlt hget2
    have h2 : ¬ j < j2 := fun hlt => hfirst2 j hj hlt hmatch
    have : j2 = j := by omega
    subst this
    simpa [dentfind] using hgo
  · rw [hcur]; exact Int.ofNat_nonneg _
  · intro hnil
    rw [hcur, hnil]
    cases s.oldpath <;> rfl
  · intro hne
    rw [hcur]
    have := dentfind_lt_length t.dents s.path s.oldpath hne
    unfold nlen
    exact_mod_cast this

/-- Evaluation of claim C1 on a concrete run: populating `/d` with the
match-everything engine gives a two-entry list with cursor 0, and
`dentfind` behaves as claimed on it. -/
theorem claim1_witness :
    dentfind [] "/d".data none = 0
    ∧ ((∀ e ∈ ([] : List Entry), mkpath "/d".data e.name ≠ "/d/a".data) →
        dentfind [] "/d".data (some "/d/a".data) = 0)
    ∧ (∀ j (hj : j < ([] : List Entry).length),
        mkpath "/d".data (([] : List Entry).get ⟨j, hj⟩).name = "/d/a".data →
        (∀ k (hk : k < ([] : List Entry).length), k < j →
          mkpath "/d".data (([] : List Entry).get ⟨k, hk⟩).name ≠ "/d/a".data) →
        dentfind [] "/d".data (some "/d/a".data) = j)
    ∧ 0 ≤ (gotoBegin wMatchAll wFS false wS).cur
    ∧ ((gotoBegin wMatchAll wFS false wS).dents = [] →
        (gotoBegin wMatchAll wFS false wS).cur = 0)
    ∧ ((gotoBegin wMatchAll wFS false wS).dents ≠ [] →
        (gotoBegin wMatchAll wFS false wS).cur < nlen (gotoBegin wMatchAll wFS false wS)) :=
  claim1_populate_cursor_dentfind wMatchAll wFS false wS (gotoBegin wMatchAll wFS false wS)
    (by decide) [] "/d".data "/d/a".data

/-- Helper: a pure cursor update satisfies `moveOk` once the new cursor
value is proved in range. -/
theorem moveOk_of_cur (s : BState) (c : Int)
    (hge : 0 ≤ c) (hlt : s.dents ≠ [] → c < nlen s) (hz : s.dents = [] → c = 0) :
    moveOk s { s with cur := c } :=
  ⟨rfl, rfl, rfl, rfl, hge, hlt, hz⟩

/-- Helper: the identity transition satisfies `moveOk` when the state was
already well-formed. -/
theorem moveOk_self (s : BState)
    (h0 : 0 ≤ s.cur) (h1 : s.dents ≠ [] → s.cur < nlen s) (h2 : s.dents = [] → s.cur = 0) :
    moveOk s s :=
  ⟨rfl, rfl, rfl, rfl, h0, h1, h2⟩

/-- Claim C2 (amended): with a viewport of at least the 4 reserved rows,
every cursor-movement action is a pure cursor update that keeps the
cursor in `[0, len-1]` on a non-empty list and never repopulates; on an
empty list all actions leave the cursor at 0 except End, which sets it
to `-1`. -/
theorem claim2_amended_movement (lines : Int) (hl : 4 ≤ lines) (s : BState)
    (h0 : 0 ≤ s.cur) (h1 : s.dents ≠ [] → s.cur < nlen s) (h2 : s.dents = [] → s.cur = 0) :
    moveOk s (selNext s) ∧ moveOk s (selPrev s) ∧ moveOk s (selPgdn lines s) ∧
    moveOk s (selPgup lines s) ∧ moveOk s (selHome s) ∧
    (s.dents ≠ [] → moveOk s (selEnd s)) ∧
    (s.dents = [] → (selEnd s).cur = -1) := by
  have hpg : 0 ≤ pgspan lines := Int.tdiv_nonneg (by omega) (by norm_num)
  have hn0 : s.dents = [] → nlen s = 0 := fun h => by simp [nlen, h]
  have hn1 : s.dents ≠ [] → 1 ≤ nlen s := fun h => by
    unfold nlen
    exact_mod_cast Nat.succ_le_of_lt (List.length_pos.mpr h)
  refine ⟨?_, ?_, ?_, ?_, ?_, ?_, ?_⟩
  · unfold selNext
    by_cases hc : s.cur < nlen s - 1
    · rw [if_pos hc]
      refine moveOk_of_cur s _ (by omega) (fun h => by have := hn1 h; omega)
        (fun h => by have := hn0 h; omega)
    · rw [if_neg hc]; exact moveOk_self s h0 h1 h2
  · unfold selPrev
    by_cases hc : 0 < s.cur
    · rw [if_pos hc]
      refine moveOk_of_cur s _ (by omega) (fun h => by have := h1 h; omega)
        (fun h => by have := h2 h; omega)
    · rw [if_neg hc]; exact moveOk_self s h0 h1 h2
  · unfold selPgdn
    by_cases hc : s.cur < nlen s - 1
    · rw [if_pos hc]
      refine moveOk_of_cur s _ (by omega) (fun h => by omega)
        (fun h => by have := hn0 h; omega)
    · rw [if_neg hc]; exact moveOk_self s h0 h1 h2
  · unfold selPgup
    by_cases hc : 0 < s.cur
    · rw [if_pos hc]
      refine moveOk_of_cur s _ (by omega) (fun h => by have := h1 h; omega)
        (fun h => by have := h2 h; omega)
    · rw [if_neg hc]; exact moveOk_self s h0 h1 h2
  · exact moveOk_of_cur s 0 le_rfl (fun h => by have := hn1 h; omega) (fun _ => rfl)
  · intro hne
    exact moveOk_of_cur s _ (by have := hn1 hne; omega)
      (fun _ => by omega) (fun h => absurd h hne)
  · intro hnil
    show nlen s - 1 = -1
    rw [hn0 hnil]
    decide

/-- Counterexample to claim C2 as stated: on an empty entry list the End
action sets the cursor to `-1`, not 0, so it is not clamped to the
claimed range. -/
theorem claim2_counterexample :
    (selEnd wEmpty).dents = [] ∧ (selEnd wEmpty).cur = -1 ∧ ¬ (selEnd wEmpty).cur = 0 := by
  decide

/-- Evaluation of the amended claim C2 on a concrete one-entry state. -/
theorem claim2_witness :
    moveOk wMv (selNext wMv) ∧ moveOk wMv (selPrev wMv) ∧ moveOk wMv (selPgdn 24 wMv) ∧
    moveOk wMv (selPgup 24 wMv) ∧ moveOk wMv (selHome wMv) ∧
    (wMv.dents ≠ [] → moveOk wMv (selEnd wMv)) ∧
    (wMv.dents = [] → (selEnd wMv).cur = -1) :=
  claim2_amended_movement 24 (by decide) wMv (by decide) (fun _ => by decide)
    (fun h => by simp [wMv] at h)

/-- Claim C3: when the active filter compiles and the requested
replacement does not, `SEL_FLTR` leaves the whole state unchanged and
performs no repopulation, so the active filter is still the previous,
successfully-compiled pattern. -/
theorem claim3_invalid_filter_keeps_state
    (R : Str → Option (Str → Bool)) (fs : FS) (mt : Bool) (ifilter : Str)
    (inp : Option Str) (s : BState) (p : Str → Bool)
    (hactive : R s.fltr = some p)
    (hfail : R (inp.getD ifilter) = none) :
    selFltr R fs mt ifilter inp s = (s, false)
    ∧ R (selFltr R fs mt ifilter inp s).1.fltr = some p := by
  have hstep : selFltr R fs mt ifilter inp s = (s, false) := by
    unfold selFltr
    simp only [hfail]
  exact ⟨hstep, by rw [hstep]; exact hactive⟩

/-- Evaluation of claim C3 on a concrete run: the pattern `(` fails to
compile and the state survives untouched. -/
theorem claim3_witness :
    selFltr wMatchAll wFS false ['.'] (some ['(']) wS = (wS, false)
    ∧ wMatchAll (selFltr wMatchAll wFS false ['.'] (some ['(']) wS).1.fltr
        = some (fun _ => true) :=
  claim3_invalid_filter_keeps_state wMatchAll wFS false ['.'] (some ['(']) wS
    (fun _ => true) rfl rfl

/-- Helper: every entry produced by the `dentfill` loop stems from a
listed name, passes the filter and is neither `.` nor `..`. -/
theorem dentfillEntries_mem (fs : FS) (path : Str) (pred : Str → Bool) :
    ∀ (ns : List Str) (e : Entry), e ∈ dentfillEntries fs path pred ns →
      e.name ∈ ns ∧ pred e.name = true ∧ e.name ≠ ['.'] ∧ e.name ≠ ['.', '.'] := by
  intro ns
  induction ns with
  | nil => intro e he; simp [dentfillEntries] at he
  | cons nm rest ih =>
    intro e he
    by_cases hdot : nm = ['.'] ∨ nm = ['.', '.']
    · simp only [dentfillEntries] at he
      rw [if_pos hdot] at he
      obtain ⟨ha, hb, hc, hd⟩ := ih e he
      exact ⟨List.mem_cons_of_mem _ ha, hb, hc, hd⟩
    · by_cases hpred : pred nm = false
      · simp only [dentfillEntries] at he
        rw [if_neg hdot, if_pos hpred] at he
        obtain ⟨ha, hb, hc, hd⟩ := ih e he
        exact ⟨List.mem_cons_of_mem _ ha, hb, hc, hd⟩
      · simp only [dentfillEntries] at he
        rw [if_neg hdot, if_neg hpred] at he
        push_neg at hdot
        rcases List.mem_cons.mp he with rfl | hmem
        · refine ⟨List.mem_cons_self _ _, ?_, hdot.1, hdot.2⟩
          revert hpred
          cases pred nm <;> simp
        · obtain ⟨ha, hb, hc, hd⟩ := ih e hmem
          exact ⟨List.mem_cons_of_mem _ ha, hb, hc, hd⟩

/-- Claim C4: an entry list built by `dentfill` with filter `pred`
contains only entries whose name `pred` accepts, and never the `.` or
`..` pseudo-entries. -/
theorem claim4_dentfill_only_matching (fs : FS) (path : Str) (pred : Str → Bool)
    (e : Entry) (he : e ∈ dentfill fs path pred) :
    pred e.name = true ∧ e.name ≠ ['.'] ∧ e.name ≠ ['.', '.'] := by
  unfold dentfill at he
  cases hl : fs.listing path with
  | none => rw [hl] at he; simp at he
  | some ns =>
    rw [hl] at he
    obtain ⟨_, hb, hc, hd⟩ := dentfillEntries_mem fs path pred ns e he
    exact ⟨hb, hc, hd⟩

/-- Evaluation of claim C4 on a concrete entry of the `/d` listing. -/
theorem claim4_witness :
    (fun _ => true) ("sub".data : Str) = true
    ∧ ("sub".data : Str) ≠ ['.'] ∧ ("sub".data : Str) ≠ ['.', '.'] := by
  have he : (⟨"sub".data, ⟨FType.dir, false⟩, 3, 0⟩ : Entry)
      ∈ dentfill wFS "/d".data (fun _ => true) := by decide
  exact claim4_dentfill_only_matching wFS "/d".data (fun _ => true) _ he

/-- Helper: the `totalsize` accumulated by the `dentfill` loop is the sum
of the sizes of the produced entries classified plain-or-executable,
reduced modulo the `unsigned long` width. -/
theorem dentfillTotal_eq (fs : FS) (path : Str) (pred : Str → Bool) :
    ∀ ns : List Str, dentfillTotal fs path pred ns =
      (List.map (fun e => e.size)
        (List.filter (fun e => regOrExec e.mode)
          (dentfillEntries fs path pred ns))).sum % 2 ^ 64 := by
  intro ns
  induction ns with
  | nil => rfl
  | cons nm rest ih =>
    by_cases hdot : nm = ['.'] ∨ nm = ['.', '.']
    · simp only [dentfillTotal, dentfillEntries]
      rw [if_pos hdot, if_pos hdot]
      exact ih
    · by_cases hpred : pred nm = false
      · simp only [dentfillTotal, dentfillEntries]
        rw [if_neg hdot, if_neg hdot, if_pos hpred, if_pos hpred]
        exact ih
      · simp only [dentfillTotal, dentfillEntries]
        rw [if_neg hdot, if_neg hdot, if_neg hpred, if_neg hpred]
        cases hro : regOrExec (fs.lstatOf (mkpath path nm)).mode
        · rw [if_neg (by simp [hro]), List.filter_cons_of_neg (by simpa using hro)]
          exact ih
        · rw [if_pos (by simp [hro]), List.filter_cons_of_pos (by simpa using hro)]
          rw [ih]
          simp only [List.map_cons, List.sum_cons]
          rw [Nat.add_mod_mod]

/-- Counterexample to claim C8 as stated: `totalsize` is an
`unsigned long` and wraps, so over a directory of two `2 ^ 63`-byte
regular files the aggregate is 0 while the exact sum of the listed
regular-or-executable sizes is `2 ^ 64`. -/
theorem claim8_counterexample :
    dentfillSize wFSBig "/b".data (fun _ => true) = 0
    ∧ (List.map (fun e => e.size)
        (List.filter (fun e => regOrExec e.mode)
          (dentfill wFSBig "/b".data (fun _ => true)))).sum = 2 ^ 64
    ∧ ¬ dentfillSize wFSBig "/b".data (fun _ => true) =
        (List.map (fun e => e.size)
          (List.filter (fun e => regOrExec e.mode)
            (dentfill wFSBig "/b".data (fun _ => true)))).sum := by
  decide

/-- Claim C8 (amended): the aggregate size returned by the lister equals
the sum of the sizes of exactly the listed entries classified
regular-or-executable (`filemode` 0 or `*`), reduced modulo `2 ^ 64` by
the `unsigned long` accumulator — hence equals that sum exactly whenever
it fits in an `unsigned long`; entries of the other classes contribute
nothing. -/
theorem claim8_amended_totalsize (fs : FS) (path : Str) (pred : Str → Bool) :
    dentfillSize fs path pred =
      (List.map (fun e => e.size)
        (List.filter (fun e => regOrExec e.mode) (dentfill fs path pred))).sum % 2 ^ 64
    ∧ ((List.map (fun e => e.size)
        (List.filter (fun e => regOrExec e.mode) (dentfill fs path pred))).sum < 2 ^ 64 →
      dentfillSize fs path pred =
        (List.map (fun e => e.size)
          (List.filter (fun e => regOrExec e.mode) (dentfill fs path pred))).sum) := by
  have h1 : dentfillSize fs path pred =
      (List.map (fun e => e.size)
        (List.filter (fun e => regOrExec e.mode) (dentfill fs path pred))).sum % 2 ^ 64 := by
    unfold dentfillSize dentfill
    cases hl : fs.listing path with
    | none => rfl
    | some ns => exact dentfillTotal_eq fs path pred ns
  refine ⟨h1, fun hlt => ?_⟩
  rw [h1, Nat.mod_eq_of_lt hlt]

/-- Evaluation of the amended claim C8 on the concrete `/d` listing,
whose total (10 bytes, the regular file only) is far below the wrap. -/
theorem claim8_witness :
    dentfillSize wFS "/d".data (fun _ => true) =
      (List.map (fun e => e.size)
        (List.filter (fun e => regOrExec e.mode)
          (dentfill wFS "/d".data (fun _ => true)))).sum % 2 ^ 64
    ∧ ((List.map (fun e => e.size)
        (List.filter (fun e => regOrExec e.mode)
          (dentfill wFS "/d".data (fun _ => true)))).sum < 2 ^ 64 →
      dentfillSize wFS "/d".data (fun _ => true) =
        (List.map (fun e => e.size)
          (List.filter (fun e => regOrExec e.mode)
            (dentfill wFS "/d".data (fun _ => true)))).sum) :=
  claim8_amended_totalsize wFS "/d".data (fun _ => true)

/-- Helper: explicit result of a successful `populate`. -/
theorem populate_some (R : Str → Option (Str → Bool)) (fs : FS) (mt : Bool) (s : BState)
    (ns : List Str) (pred : Str → Bool)
    (hl : fs.listing s.path = some ns) (hR : R s.fltr = some pred) :
    populate R fs mt s = some { s with
      dents := csort (entrycmp mt) (dentfill fs s.path pred)
      cur := ((dentfind (csort (entrycmp mt) (dentfill fs s.path pred))
                s.path s.oldpath : Nat) : Int)
      oldpath := none } := by
  unfold populate
  rw [hl, hR]

/-- Helper: `goto begin` never changes the filter string. -/
theorem gotoBegin_fltr (R : Str → Option (Str → Bool)) (fs : FS) (mt : Bool) (s : BState) :
    (gotoBegin R fs mt s).fltr = s.fltr := by
  unfold gotoBegin
  cases h : populate R fs mt s with
  | none => rfl
  | some t =>
    obtain ⟨_, _, _, _, _, _, _, hf⟩ := populate_inv h
    simpa using hf

/-- Helper: `goto begin` keeps an empty history slot empty (a successful
`populate` clears it, a failed one leaves it untouched). -/
theorem gotoBegin_oldpath_none (R : Str → Option (Str → Bool)) (fs : FS) (mt : Bool)
    (s : BState) (h : s.oldpath = none) : (gotoBegin R fs mt s).oldpath = none := by
  unfold gotoBegin
  cases hp : populate R fs mt s with
  | none => simpa using h
  | some t =>
    obtain ⟨_, _, _, _, _, ho, _, _⟩ := populate_inv hp
    simpa using ho

/-- Counterexample to claim C7 as stated: with the custom filter `x`
active, empty input at the filter prompt does not revert to the prior
filter; the filter becomes the initial default instead. -/
theorem claim7_counterexample :
    wS7.fltr = "x".data
    ∧ (selFltr wMatchAll wFS false ['.'] none wS7).1.fltr = ['.']
    ∧ ¬ (selFltr wMatchAll wFS false ['.'] none wS7).1.fltr = wS7.fltr := by
  decide

/-- Claim C7 (amended): empty or cancelled input at the change-directory
prompt is treated as no change requested — prior path kept, no
repopulation, no error; empty input at the filter prompt instead resets
the active filter to the initial default filter and repopulates (keeping
the selected entry via the history slot when the list is non-empty). -/
theorem claim7_amended_empty_input
    (R : Str → Option (Str → Bool)) (fs : FS) (mt : Bool) (ifilter : Str) (s : BState)
    (p : Str → Bool) (hR : R ifilter = some p) :
    selCd R fs mt ifilter none s = (s, false)
    ∧ (selFltr R fs mt ifilter none s).1.fltr = ifilter
    ∧ (selFltr R fs mt ifilter none s).2 = true := by
  refine ⟨rfl, ?_, ?_⟩
  · unfold selFltr
    simp only [Option.getD_none, hR, gotoBegin_fltr]
  · unfold selFltr
    simp only [Option.getD_none, hR]

/-- Evaluation of the amended claim C7 on a concrete state with a custom
filter. -/
theorem claim7_witness :
    selCd wMatchAll wFS false ['.'] none wS7 = (wS7, false)
    ∧ (selFltr wMatchAll wFS false ['.'] none wS7).1.fltr = ['.']
    ∧ (selFltr wMatchAll wFS false ['.'] none wS7).2 = true :=
  claim7_amended_empty_input wMatchAll wFS false ['.'] wS7 (fun _ => true) rfl

/-- Claim C9: change-directory never writes the history slot — its
repopulation restores the cursor from the untouched previous slot, so an
empty slot makes the cursor 0 — while jump-home pushes the current path
into the slot before switching, and its repopulation looks that path
up. -/
theorem claim9_cd_vs_cdhome_history
    (R : Str → Option (Str → Bool)) (fs : FS) (mt : Bool) (ifilter : Str)
    (tmp home : Str) (s : BState) (p : Str → Bool) (ns1 ns2 : List Str)
    (hR : R ifilter = some p)
    (hcd : fs.listing (mkpath s.path tmp) = some ns1)
    (hhome : fs.listing (mkpath s.path home) = some ns2) :
    ((selCd R fs mt ifilter (some tmp) s).1.cur
      = ((dentfind (csort (entrycmp mt) (dentfill fs (mkpath s.path tmp) p))
           (mkpath s.path tmp) s.oldpath : Nat) : Int))
    ∧ (s.oldpath = none → (selCd R fs mt ifilter (some tmp) s).1.cur = 0)
    ∧ ((selCdHome R fs mt ifilter (some home) s).1.cur
      = ((dentfind (csort (entrycmp mt) (dentfill fs (mkpath s.path home) p))
           (mkpath s.path home) (some s.path) : Nat) : Int)) := by
  have hstep1 : (selCd R fs mt ifilter (some tmp) s).1.cur
      = ((dentfind (csort (entrycmp mt) (dentfill fs (mkpath s.path tmp) p))
           (mkpath s.path tmp) s.oldpath : Nat) : Int) := by
    unfold selCd gotoBegin
    dsimp only
    rw [hcd]
    simp only [Option.isNone_some, Bool.false_eq_true, if_false]
    rw [populate_some R fs mt _ ns1 p hcd hR]
    rfl
  refine ⟨hstep1, ?_, ?_⟩
  · intro hop
    rw [hstep1, hop]
    rfl
  · unfold selCdHome gotoBegin
    dsimp only
    rw [hhome]
    simp only [Option.isNone_some, Bool.false_eq_true, if_false]
    rw [populate_some R fs mt _ ns2 p hhome hR]
    rfl

/-- Evaluation of claim C9 on a concrete run: jumping from `/d` into
`/d/sub` by both actions. -/
theorem claim9_witness :
    ((selCd wMatchAll wFS false ['.'] (some "sub".data) wS).1.cur
      = ((dentfind (csort (entrycmp false) (dentfill wFS "/d/sub".data (fun _ => true)))
           "/d/sub".data wS.oldpath : Nat) : Int))
    ∧ (wS.oldpath = none → (selCd wMatchAll wFS false ['.'] (some "sub".data) wS).1.cur = 0)
    ∧ ((selCdHome wMatchAll wFS false ['.'] (some "sub".data) wS).1.cur
      = ((dentfind (csort (entrycmp false) (dentfill wFS "/d/sub".data (fun _ => true)))
           "/d/sub".data (some wS.path) : Nat) : Int)) :=
  claim9_cd_vs_cdhome_history wMatchAll wFS false ['.'] "sub".data "sub".data wS
    (fun _ => true) [] [] rfl (by decide) (by decide)

/-- Claim C10: toggling dotfile visibility replaces any filter different
from the initial default — a custom one included — with the initial
default, and only the default itself with the show-everything pattern
`.`; the history slot is not written, so after a successful repopulation
the cursor is reset to 0. -/
theorem claim10_toggledot
    (R : Str → Option (Str → Bool)) (fs : FS) (mt : Bool) (ifilter : Str) (s : BState) :
    (s.fltr ≠ ifilter → (selToggledot R fs mt ifilter s).fltr = ifilter)
    ∧ (s.fltr = ifilter → (selToggledot R fs mt ifilter s).fltr = ['.'])
    ∧ (s.oldpath = none → (selToggledot R fs mt ifilter s).oldpath = none)
    ∧ (∀ (p : Str → Bool) (ns : List Str), s.oldpath = none →
        R (toggleFltr ifilter s.fltr) = some p → fs.listing s.path = some ns →
        (selToggledot R fs mt ifilter s).cur = 0) := by
  refine ⟨?_, ?_, ?_, ?_⟩
  · intro hne
    unfold selToggledot
    rw [gotoBegin_fltr]
    simp [toggleFltr, hne]
  · intro heq
    unfold selToggledot
    rw [gotoBegin_fltr]
    simp [toggleFltr, heq]
  · intro hop
    exact gotoBegin_oldpath_none R fs mt _ (by simpa using hop)
  · intro p ns hop hRp hls
    unfold selToggledot gotoBegin
    rw [populate_some R fs mt _ ns p (by simpa using hls) (by simpa using hRp)]
    simp only [Option.getD_some]
    show ((dentfind _ _ (BState.oldpath { s with fltr := toggleFltr ifilter s.fltr }) : Nat) : Int) = 0
    rw [show BState.oldpath { s with fltr := toggleFltr ifilter s.fltr } = s.oldpath from rfl, hop]
    rfl

/-- Evaluation of claim C10 on a concrete state with the custom filter
`x` active: the toggle resets it to the default filter. -/
theorem claim10_witness :
    (wS7.fltr ≠ ['.'] → (selToggledot wMatchAll wFS false ['.'] wS7).fltr = ['.'])
    ∧ (wS7.fltr = ['.'] → (selToggledot wMatchAll wFS false ['.'] wS7).fltr = ['.'])
    ∧ (wS7.oldpath = none → (selToggledot wMatchAll wFS false ['.'] wS7).oldpath = none)
    ∧ (∀ (p : Str → Bool) (ns : List Str), wS7.oldpath = none →
        wMatchAll (toggleFltr ['.'] wS7.fltr) = some p →
        wFS.listing wS7.path = some ns →
        (selToggledot wMatchAll wFS false ['.'] wS7).cur = 0) :=
  claim10_toggledot wMatchAll wFS false ['.'] wS7

/-- Helper: `Char.toNat` is injective. -/
theorem char_toNat_inj {a b : Char} (h : a.toNat = b.toNat) : a = b := by
  have hv : a.val = b.val := by
    simp only [Char.toNat] at h
    exact UInt32.toNat.inj h
  exact Char.ext hv

/-- Helper: `strcmp` is reflexive-zero. -/
theorem strcmp_self (a : Str) : strcmp a a = 0 := by
  induction a with
  | nil => rfl
  | cons c cs ih => simpa [strcmp] using ih

/-- Helper: `strcmp` result 0 means equal strings. -/
theorem strcmp_eq_zero {a b : Str} (h : strcmp a b = 0) : a = b := by
  induction a generalizing b with
  | nil =>
    cases b with
    | nil => rfl
    | cons d ds => simp [strcmp] at h
  | cons c cs ih =>
    cases b with
    | nil => simp [strcmp] at h
    | cons d ds =>
      by_cases hcd : c = d
      · subst hcd
        rw [strcmp, if_pos rfl] at h
        rw [ih h]
      · rw [strcmp, if_neg hcd] at h
        have : c.toNat = d.toNat := by omega
        exact absurd (char_toNat_inj this) hcd

/-- Helper: `strcmp` is sign-antisymmetric. -/
theorem strcmp_antisymm (a b : Str) : strcmp a b = - strcmp b a := by
  induction a generalizing b with
  | nil => cases b <;> simp [strcmp]
  | cons c cs ih =>
    cases b with
    | nil => simp [strcmp]
    | cons d ds =>
      by_cases hcd : c = d
      · subst hcd
        rw [strcmp, if_pos rfl, strcmp, if_pos rfl]
        exact ih ds
      · rw [strcmp, if_neg hcd, strcmp, if_neg (Ne.symm hcd)]
        omega

/-- Helper: nonpositive `strcmp` is transitive. -/
theorem strcmp_le_trans {a b c : Str} (h1 : strcmp a b ≤ 0) (h2 : strcmp b c ≤ 0) :
    strcmp a c ≤ 0 := by
  induction a generalizing b c with
  | nil =>
    cases c with
    | nil => simp [strcmp]
    | cons z zs => simp [strcmp]
  | cons x xs ih =>
    cases b with
    | nil => simp [strcmp] at h1
    | cons y ys =>
      cases c with
      | nil => simp [strcmp] at h2
      | cons z zs =>
        by_cases hxy : x = y
        · subst hxy
          rw [strcmp, if_pos rfl] at h1
          by_cases hxz : x = z
          · subst hxz
            rw [strcmp, if_pos rfl] at h2 ⊢
            exact ih h1 h2
          · rw [strcmp, if_neg hxz] at h2 ⊢
            exact h2
        · rw [strcmp, if_neg hxy] at h1
          have hxyn : x.toNat < y.toNat := by
            rcases Nat.lt_or_ge x.toNat y.toNat with h | h
            · exact h
            · have : x.toNat = y.toNat := by omega
              exact absurd (char_toNat_inj this) hxy
          by_cases hyz : y = z
          · subst hyz
            rw [strcmp, if_neg hxy]
            omega
          · rw [strcmp, if_neg hyz] at h2
            have hyzn : y.toNat < z.toNat := by
              rcases Nat.lt_or_ge y.toNat z.toNat with h | h
              · exact h
              · have : y.toNat = z.toNat := by omega
                exact absurd (char_toNat_inj this) hyz
            have hxz : x ≠ z := by
              intro he
              subst he
              omega
            rw [strcmp, if_neg hxz]
            omega

/-- Helper: `strcmp` is total for the nonpositive order. -/
theorem strcmp_le_total (a b : Str) : strcmp a b ≤ 0 ∨ strcmp b a ≤ 0 := by
  rcases Int.le_or_lt (strcmp a b) 0 with h | h
  · exact Or.inl h
  · refine Or.inr ?_
    rw [strcmp_antisymm b a]
    omega

/-- Helper: truncation to `int` is the identity inside the 32-bit
range. -/
theorem ctoi_eq_self {x : Int} (h1 : -(2 ^ 31) < x) (h2 : x < 2 ^ 31) : ctoi x = x := by
  unfold ctoi
  have hge : 0 ≤ x + 2 ^ 31 := by omega
  have hlt : x + 2 ^ 31 < 2 ^ 32 := by omega
  rw [Int.emod_eq_of_lt hge hlt]
  omega

/-- Helper: membership in `csInsert`. -/
theorem mem_csInsert (cmp : Entry → Entry → Int) (a x : Entry) (l : List Entry) :
    x ∈ csInsert cmp a l ↔ x = a ∨ x ∈ l := by
  induction l with
  | nil => simp [csInsert]
  | cons b bs ih =>
    by_cases h : cmp a b ≤ 0
    · rw [csInsert, if_pos h]
      simp
    · rw [csInsert, if_neg h]
      simp [ih]
      tauto

/-- Helper: membership in `csort`. -/
theorem mem_csort (cmp : Entry → Entry → Int) (l : List Entry) (x : Entry) :
    x ∈ csort cmp l ↔ x ∈ l := by
  induction l with
  | nil => simp [csort]
  | cons a as ih =>
    rw [csort]
    rw [mem_csInsert]
    simp [ih]

/-- Helper: weakening of membership from `a :: bs` into `a :: b :: bs`. -/
theorem mem_drop_middle {a b x : Entry} {bs : List Entry} (h : x ∈ a :: bs) :
    x ∈ a :: b :: bs := by
  rcases List.mem_cons.mp h with rfl | h'
  · exact List.mem_cons_self _ _
  · exact List.mem_cons_of_mem _ (List.mem_cons_of_mem _ h')

/-- Helper: inserting into a comparator-sorted list keeps it sorted, with
transitivity and totality required only on the elements involved. -/
theorem pairwise_csInsert (cmp : Entry → Entry → Int) (a : Entry) (l : List Entry)
    (hl : List.Pairwise (fun x y => cmp x y ≤ 0) l)
    (htrans : ∀ x ∈ a :: l, ∀ y ∈ a :: l, ∀ z ∈ a :: l,
      cmp x y ≤ 0 → cmp y z ≤ 0 → cmp x z ≤ 0)
    (htot : ∀ x ∈ a :: l, ∀ y ∈ a :: l, cmp x y ≤ 0 ∨ cmp y x ≤ 0) :
    List.Pairwise (fun x y => cmp x y ≤ 0) (csInsert cmp a l) := by
  induction l with
  | nil => simp [csInsert]
  | cons b bs ih =>
    rcases List.pairwise_cons.mp hl with ⟨hb, hbs⟩
    by_cases h : cmp a b ≤ 0
    · rw [csInsert, if_pos h]
      refine List.pairwise_cons.mpr ⟨?_, hl⟩
      intro x hx
      rcases List.mem_cons.mp hx with rfl | hxbs
      · exact h
      · refine htrans a (List.mem_cons_self _ _) b ?_ x ?_ h (hb x hxbs)
        · exact List.mem_cons_of_mem _ (List.mem_cons_self _ _)
        · exact List.mem_cons_of_mem _ (List.mem_cons_of_mem _ hxbs)
    · rw [csInsert, if_neg h]
      refine List.pairwise_cons.mpr ⟨?_, ?_⟩
      · intro x hx
        rcases (mem_csInsert cmp a x bs).mp hx with rfl | hxbs
        · rcases htot x (List.mem_cons_self _ _) b
            (List.mem_cons_of_mem _ (List.mem_cons_self _ _)) with h' | h'
          · exact absurd h' h
          · exact h'
        · exact hb x hxbs
      · refine ih hbs ?_ ?_
        · intro x hx y hy z hz
          exact htrans x (mem_drop_middle hx) y (mem_drop_middle hy) z (mem_drop_middle hz)
        · intro x hx y hy
          exact htot x (mem_drop_middle hx) y (mem_drop_middle hy)

/-- Helper: the `qsort` model produces a comparator-sorted list, with
transitivity and totality required only on the input elements. -/
theorem csort_pairwise (cmp : Entry → Entry → Int) (l : List Entry)
    (htrans : ∀ x ∈ l, ∀ y ∈ l, ∀ z ∈ l, cmp x y ≤ 0 → cmp y z ≤ 0 → cmp x z ≤ 0)
    (htot : ∀ x ∈ l, ∀ y ∈ l, cmp x y ≤ 0 ∨ cmp y x ≤ 0) :
    List.Pairwise (fun x y => cmp x y ≤ 0) (csort cmp l) := by
  induction l with
  | nil => simp [csort]
  | cons a as ih =>
    rw [csort]
    have hmem : ∀ x ∈ a :: csort cmp as, x ∈ a :: as := by
      intro x hx
      rcases List.mem_cons.mp hx with rfl | hx'
      · exact List.mem_cons_self _ _
      · exact List.mem_cons_of_mem _ ((mem_csort cmp as x).mp hx')
    refine pairwise_csInsert cmp a (csort cmp as) ?_ ?_ ?_
    · refine ih ?_ ?_
      · intro x hx y hy z hz
        exact htrans x (List.mem_cons_of_mem _ hx) y (List.mem_cons_of_mem _ hy)
          z (List.mem_cons_of_mem _ hz)
      · intro x hx y hy
        exact htot x (List.mem_cons_of_mem _ hx) y (List.mem_cons_of_mem _ hy)
    · intro x hx y hy z hz
      exact htrans x (hmem x hx) y (hmem y hy) z (hmem z hz)
    · intro x hx y hy
      exact htot x (hmem x hx) y (hmem y hy)

/-- Counterexample to claim C5 as stated: repopulating `/t` under time
order, whose two files share one modification time, yields a list where
the entry at position 0 precedes the one at position 1 although its
mtime is not strictly greater, so "A precedes B iff A.mtime > B.mtime"
fails. -/
theorem claim5_counterexample :
    1 < (gotoBegin wMatchAll wFSTie true wSTie).dents.length
    ∧ ¬ ((0 : Nat) < 1 ↔
        ((gotoBegin wMatchAll wFSTie true wSTie).dents.getD 1 dfltEntry).t
          < ((gotoBegin wMatchAll wFSTie true wSTie).dents.getD 0 dfltEntry).t) := by
  decide

/-- Claim C5 (amended): after repopulation, under name order with
pairwise-distinct names, A precedes B iff `strcmp` puts A.name strictly
below B.name; under time order with timestamps inside the 32-bit-safe
range, A preceding B implies A.mtime >= B.mtime (descending, ties in
unspecified order). -/
theorem claim5_amended_sort_order
    (R : Str → Option (Str → Bool)) (fs : FS) (mt : Bool) (s t : BState)
    (hpop : populate R fs mt s = some t) :
    (mt = false → List.Pairwise (fun a b : Entry => a.name ≠ b.name) t.dents →
      ∀ i j : Fin t.dents.length,
        i < j ↔ strcmp (t.dents.get i).name (t.dents.get j).name < 0)
    ∧ (mt = true → (∀ e ∈ t.dents, 0 ≤ e.t ∧ e.t < 2 ^ 31) →
      ∀ i j : Fin t.dents.length, i < j → (t.dents.get j).t ≤ (t.dents.get i).t) := by
  obtain ⟨pred, hR, hlist, hdents, hcur, hop, hpath, hfltr⟩ := populate_inv hpop
  constructor
  · rintro rfl hdist
    have hsorted : List.Pairwise (fun x y : Entry => strcmp x.name y.name ≤ 0) t.dents := by
      rw [hdents]
      have h := csort_pairwise (entrycmp false) (dentfill fs s.path pred)
        (fun x _ y _ z _ h1 h2 => by
          simp only [entrycmp, Bool.false_eq_true, if_false] at h1 h2 ⊢
          exact strcmp_le_trans h1 h2)
        (fun x _ y _ => by
          simp only [entrycmp, Bool.false_eq_true, if_false]
          exact strcmp_le_total x.name y.name)
      exact h.imp (fun hxy => by
        simpa only [entrycmp, Bool.false_eq_true, if_false] using hxy)
    intro i j
    constructor
    · intro hij
      have hle := List.pairwise_iff_get.mp hsorted i j hij
      have hne := List.pairwise_iff_get.mp hdist i j hij
      rcases lt_or_eq_of_le hle with h | h
      · exact h
      · exact absurd (strcmp_eq_zero h) hne
    · intro hlt
      rcases Nat.lt_trichotomy i.val j.val with hij | hij | hij
      · exact hij
      · have : i = j := Fin.ext hij
        subst this
        rw [strcmp_self] at hlt
        exact absurd hlt (lt_irrefl 0)
      · have hle := List.pairwise_iff_get.mp hsorted j i hij
        rw [strcmp_antisymm] at hlt
        omega
  · rintro rfl hbound
    have hbl : ∀ e ∈ dentfill fs s.path pred, 0 ≤ e.t ∧ e.t < 2 ^ 31 := by
      intro e he
      exact hbound e (by rw [hdents]; exact (mem_csort _ _ e).mpr he)
    have hkey : ∀ x ∈ dentfill fs s.path pred, ∀ y ∈ dentfill fs s.path pred,
        (entrycmp true x y ≤ 0 ↔ y.t ≤ x.t) := by
      intro x hx y hy
      have hbx := hbl x hx
      have hby := hbl y hy
      simp only [entrycmp, if_pos]
      rw [ctoi_eq_self (by omega) (by omega)]
      omega
    have hsorted : List.Pairwise (fun x y : Entry => y.t ≤ x.t) t.dents := by
      rw [hdents]
      refine List.Pairwise.imp_of_mem ?_
        (csort_pairwise (entrycmp true) (dentfill fs s.path pred) ?_ ?_)
      · intro a b ha hb hab
        exact (hkey a ((mem_csort _ _ a).mp ha) b ((mem_csort _ _ b).mp hb)).mp hab
      · intro x hx y hy z hz h1 h2
        have k1 := (hkey x hx y hy).mp h1
        have k2 := (hkey y hy z hz).mp h2
        exact (hkey x hx z hz).mpr (by omega)
      · intro x hx y hy
        rcases le_total y.t x.t with h | h
        · exact Or.inl ((hkey x hx y hy).mpr h)
        · exact Or.inr ((hkey y hy x hx).mpr h)
    intro i j hij
    exact List.pairwise_iff_get.mp hsorted i j hij

/-- Evaluation of the amended claim C5 on the concrete name-order
population of `/d`. -/
theorem claim5_witness :
    (false = false → List.Pairwise (fun a b : Entry => a.name ≠ b.name)
        (gotoBegin wMatchAll wFS false wS).dents →
      ∀ i j : Fin (gotoBegin wMatchAll wFS false wS).dents.length,
        i < j ↔ strcmp ((gotoBegin wMatchAll wFS false wS).dents.get i).name
          ((gotoBegin wMatchAll wFS false wS).dents.get j).name < 0)
    ∧ (false = true →
      (∀ e ∈ (gotoBegin wMatchAll wFS false wS).dents, 0 ≤ e.t ∧ e.t < 2 ^ 31) →
      ∀ i j : Fin (gotoBegin wMatchAll wFS false wS).dents.length,
        i < j → ((gotoBegin wMatchAll wFS false wS).dents.get j).t
          ≤ ((gotoBegin wMatchAll wFS false wS).dents.get i).t) :=
  claim5_amended_sort_order wMatchAll wFS false wS (gotoBegin wMatchAll wFS false wS)
    (by decide)

/-- Helper: `dropWhile` skips a prefix that satisfies the predicate
throughout. -/
theorem dropWhile_append_of_all {p : Char → Bool} {l1 l2 : Str}
    (h : ∀ x ∈ l1, p x = true) : List.dropWhile p (l1 ++ l2) = List.dropWhile p l2 := by
  induction l1 with
  | nil => rfl
  | cons a l ih =>
    rw [List.cons_append, List.dropWhile_cons, if_pos (h a (List.mem_cons_self _ _))]
    exact ih (fun x hx => h x (List.mem_cons_of_mem _ hx))

/-- Helper: appending a slash-free nonempty component leaves nothing to
strip from the tail. -/
theorem dropTrailing_append_no_slash {m name : Str} (hn : name ≠ []) (hslash : '/' ∉ name) :
    dropTrailing '/' (m ++ name) = m ++ name := by
  unfold dropTrailing
  rw [List.reverse_append]
  obtain ⟨c, cs, hcc⟩ : ∃ c cs, name.reverse = c :: cs := by
    cases hrev : name.reverse with
    | nil =>
      have : name = [] := by simpa using congrArg List.reverse hrev
      exact absurd this hn
    | cons c cs => exact ⟨c, cs, rfl⟩
  have hc : c ∈ name := by
    have h1 : c ∈ name.reverse := by rw [hcc]; exact List.mem_cons_self _ _
    simpa using h1
  have hcne : ¬ c = '/' := fun h => hslash (h ▸ hc)
  rw [hcc, List.cons_append, List.dropWhile_cons, if_neg (by simpa using hcne),
    ← List.cons_append, ← hcc, ← List.reverse_append, List.reverse_reverse]

/-- Helper: a list not ending in a slash loses nothing to the slash
`dropWhile` on its reverse. -/
theorem dropWhile_slash_eq_self {p : Str} (hne : p ≠ []) (h : p.getLast? ≠ some '/') :
    p.reverse.dropWhile (fun x => x = '/') = p.reverse := by
  obtain ⟨d, ds, hdd⟩ : ∃ d ds, p.reverse = d :: ds := by
    cases hrev : p.reverse with
    | nil =>
      have : p = [] := by simpa using congrArg List.reverse hrev
      exact absurd this hne
    | cons d ds => exact ⟨d, ds, rfl⟩
  have hlast : p.getLast? = some d := by
    rw [← List.head?_reverse, hdd]
    rfl
  have hd : ¬ d = '/' := fun hh => h (by rw [hlast, hh])
  rw [hdd, List.dropWhile_cons, if_neg (by simpa using hd)]

/-- Helper: `dropTrailing` is the identity on a list not ending in the
dropped character. -/
theorem dropTrailing_of_getLast {p : Str} (hne : p ≠ []) (h : p.getLast? ≠ some '/') :
    dropTrailing '/' p = p := by
  unfold dropTrailing
  rw [dropWhile_slash_eq_self hne h, List.reverse_reverse]

/-- Helper: `dropTrailing` removes exactly one appended slash. -/
theorem dropTrailing_append_slash {p : Str} (hne : p ≠ []) (h : p.getLast? ≠ some '/') :
    dropTrailing '/' (p ++ ['/']) = p := by
  unfold dropTrailing
  have h1 : (p ++ ['/']).reverse = '/' :: p.reverse := by simp
  rw [h1, List.dropWhile_cons, if_pos (by simp), dropWhile_slash_eq_self hne h,
    List.reverse_reverse]

/-- Helper: `dirname` undoes `mkpath` for a clean absolute directory and
a nonempty slash-free component. -/
theorem dirname_mkpath (p name : Str) (hp : p.head? = some '/')
    (hroot : p = ['/'] ∨ p.getLast? ≠ some '/')
    (hn : name ≠ []) (hslash : '/' ∉ name) :
    dirnameStr (mkpath p name) = p := by
  have hnh : ¬ name.head? = some '/' := by
    cases name with
    | nil => exact absurd rfl hn
    | cons c cs =>
      intro h
      have hcc : c = '/' := by simpa using h
      exact hslash (hcc ▸ List.mem_cons_self c cs)
  rw [mkpath, if_neg hnh]
  by_cases hr : p = ['/']
  · rw [if_pos hr, hr]
    have hl1 : dropTrailing '/' ('/' :: name) = '/' :: name := by
      have h0 := dropTrailing_append_no_slash (m := ['/']) hn hslash
      simpa using h0
    have hinner : dropLastComp ('/' :: name) = [] := by
      unfold dropLastComp
      rw [List.reverse_cons,
        dropWhile_append_of_all (fun x hx => by
          have hxn : x ∈ name := by simpa using hx
          have hne2 : x ≠ '/' := fun he => hslash (he ▸ hxn)
          simpa using hne2)]
      decide
    rw [dirnameStr, hl1, if_neg (by simp), if_neg (by simp), hinner, if_pos rfl]
  · rw [if_neg hr]
    have hpne : p ≠ [] := by
      intro h
      rw [h] at hp
      simp at hp
    have hlast : p.getLast? ≠ some '/' := hroot.resolve_left hr
    have hl1 : dropTrailing '/' (p ++ '/' :: name) = p ++ '/' :: name := by
      have h0 := dropTrailing_append_no_slash (m := p ++ ['/']) hn hslash
      simpa using h0
    have hinner : dropLastComp (p ++ '/' :: name) = p := by
      unfold dropLastComp
      have hrev : (p ++ '/' :: name).reverse = name.reverse ++ ('/' :: p.reverse) := by
        simp
      rw [hrev,
        dropWhile_append_of_all (fun x hx => by
          have hxn : x ∈ name := by simpa using hx
          have hne2 : x ≠ '/' := fun he => hslash (he ▸ hxn)
          simpa using hne2),
        List.dropWhile_cons, if_neg (by simp)]
      have hback : ('/' :: p.reverse).reverse = p ++ ['/'] := by simp
      rw [hback, dropTrailing_append_slash hpne hlast]
    rw [dirnameStr, hl1, if_neg (by simp), if_neg (by simp), hinner, if_neg hpne]

/-- Helper: shape facts about a joined path built from a clean absolute
directory and a nonempty slash-free component: it starts with a slash,
has at least two characters and contains a slash. -/
theorem mkpath_shape (p nm : Str) (hp : p.head? = some '/') (hn : nm ≠ [])
    (hslash : '/' ∉ nm) :
    (mkpath p nm).head? = some '/' ∧ 2 ≤ (mkpath p nm).length ∧ '/' ∈ mkpath p nm := by
  have hnh : ¬ nm.head? = some '/' := by
    cases nm with
    | nil => exact absurd rfl hn
    | cons c cs =>
      intro h
      have hcc : c = '/' := by simpa using h
      exact hslash (hcc ▸ List.mem_cons_self c cs)
  have hpne : p ≠ [] := by
    intro h
    rw [h] at hp
    simp at hp
  rw [mkpath, if_neg hnh]
  by_cases hr : p = ['/']
  · rw [if_pos hr]
    refine ⟨rfl, ?_, List.mem_cons_self _ _⟩
    cases nm with
    | nil => exact absurd rfl hn
    | cons c cs => simp
  · rw [if_neg hr]
    refine ⟨?_, ?_, ?_⟩
    · cases hpp : p with
      | nil => exact absurd hpp hpne
      | cons a as =>
        rw [hpp] at hp
        simpa using hp
    · have : 1 ≤ p.length := by
        cases hpp : p with
        | nil => exact absurd hpp hpne
        | cons a as => simp
      simp only [List.length_append, List.length_cons]
      omega
    · exact List.mem_append.mpr (Or.inr (List.mem_cons_self _ _))

/-- Helper: joining distinct relative components onto the same directory
gives distinct paths. -/
theorem mkpath_right_inj {p x y : Str} (hx : x.head? ≠ some '/') (hy : y.head? ≠ some '/')
    (h : mkpath p x = mkpath p y) : x = y := by
  rw [mkpath, if_neg hx, mkpath, if_neg hy] at h
  by_cases hr : p = ['/']
  · rw [if_pos hr, if_pos hr] at h
    exact List.cons.inj h |>.2
  · rw [if_neg hr, if_neg hr] at h
    have := List.append_cancel_left h
    exact List.cons.inj this |>.2

/-- Helper: a listed name that passes the filter and is not a
pseudo-entry produces an entry with that name in the `dentfill` loop
output. -/
theorem dentfillEntries_mem_of_name (fs : FS) (path : Str) (pred : Str → Bool) :
    ∀ (ns : List Str) (nm : Str), nm ∈ ns → pred nm = true → nm ≠ ['.'] →
      nm ≠ ['.', '.'] → ∃ e ∈ dentfillEntries fs path pred ns, e.name = nm := by
  intro ns
  induction ns with
  | nil => intro nm h; simp at h
  | cons a rest ih =>
    intro nm hmem hpred h3 h4
    rcases List.mem_cons.mp hmem with rfl | hmem'
    · have hdot : ¬ (nm = ['.'] ∨ nm = ['.', '.']) := by
        intro h
        rcases h with h | h
        · exact h3 h
        · exact h4 h
      have hpf : ¬ pred nm = false := by
        rw [hpred]
        simp
      rw [dentfillEntries, if_neg hdot, if_neg hpf]
      exact ⟨_, List.mem_cons_self _ _, rfl⟩
    · obtain ⟨e, he, hname⟩ := ih nm hmem' hpred h3 h4
      by_cases hdot : a = ['.'] ∨ a = ['.', '.']
      · rw [dentfillEntries, if_pos hdot]
        exact ⟨e, he, hname⟩
      · by_cases hpf : pred a = false
        · rw [dentfillEntries, if_neg hdot, if_pos hpf]
          exact ⟨e, he, hname⟩
        · rw [dentfillEntries, if_neg hdot, if_neg hpf]
          exact ⟨e, List.mem_cons_of_mem _ he, hname⟩

/-- Helper: explicit form of `goto begin` when `populate` succeeds. -/
theorem gotoBegin_some (R : Str → Option (Str → Bool)) (fs : FS) (mt : Bool) (s : BState)
    (ns : List Str) (pred : Str → Bool)
    (hl : fs.listing s.path = some ns) (hR : R s.fltr = some pred) :
    gotoBegin R fs mt s = { s with
      dents := csort (entrycmp mt) (dentfill fs s.path pred)
      cur := ((dentfind (csort (entrycmp mt) (dentfill fs s.path pred))
                s.path s.oldpath : Nat) : Int)
      oldpath := none } := by
  unfold gotoBegin
  rw [populate_some R fs mt s ns pred hl hR]
  rfl

/-- Helper: `SEL_GOIN` on a selected entry that re-classifies as an
openable directory descends into it. -/
theorem selGoin_dir (R : Str → Option (Str → Bool)) (fs : FS) (mt : Bool) (ifilter : Str)
    (s : BState) (st : Stat) (cl : List Str)
    (hne : ¬ s.dents.length = 0)
    (hstat : fs.fstatOf (mkpath s.path (curName s)) = some st)
    (hdir : st.mode.ftype = FType.dir)
    (hchild : fs.listing (mkpath s.path (curName s)) = some cl) :
    selGoin R fs mt ifilter s
      = gotoBegin R fs mt { s with path := mkpath s.path (curName s), fltr := ifilter } := by
  unfold selGoin
  rw [if_neg hne]
  dsimp only
  rw [hstat]
  dsimp only
  rw [hdir]
  dsimp only
  rw [hchild]
  dsimp only [Option.isNone_some]
  rw [if_neg (by simp)]

/-- Helper: `SEL_BACK` away from the root pushes the current path and
moves to the openable parent. -/
theorem selBack_step (R : Str → Option (Str → Bool)) (fs : FS) (mt : Bool) (ifilter : Str)
    (d : BState) (pl : List Str)
    (h1 : ¬ (d.path = ['/'] ∨ d.path = ['.'] ∨ '/' ∉ d.path))
    (hpar : fs.listing (dirnameStr d.path) = some pl) :
    selBack R fs mt ifilter d
      = gotoBegin R fs mt { d with
          path := dirnameStr d.path
          fltr := ifilter
          oldpath := some d.path } := by
  unfold selBack
  rw [if_neg h1]
  dsimp only
  rw [hpar]
  dsimp only [Option.isNone_some]
  rw [if_neg (by simp)]

/-- Claim C6: from a clean absolute directory, descending into the
selected subdirectory and then ascending brings the cursor back to an
entry with the very name that was selected before the descent, provided
that name is still listed in the parent and matches the active
(reset-to-default) filter after the ascent. -/
theorem claim6_descend_ascend_roundtrip
    (R : Str → Option (Str → Bool)) (fs : FS) (mt : Bool) (ifilter : Str) (s : BState)
    (pred : Str → Bool) (st : Stat) (cl pl : List Str)
    (hp : s.path.head? = some '/')
    (hroot : s.path = ['/'] ∨ s.path.getLast? ≠ some '/')
    (hne : ¬ s.dents.length = 0)
    (hn1 : curName s ≠ []) (hn2 : '/' ∉ curName s)
    (hn3 : curName s ≠ ['.']) (hn4 : curName s ≠ ['.', '.'])
    (hstat : fs.fstatOf (mkpath s.path (curName s)) = some st)
    (hdir : st.mode.ftype = FType.dir)
    (hchild : fs.listing (mkpath s.path (curName s)) = some cl)
    (hR : R ifilter = some pred)
    (hparent : fs.listing s.path = some pl)
    (hmem : curName s ∈ pl) (hpred : pred (curName s) = true)
    (habs : ∀ nm ∈ pl, nm.head? ≠ some '/') :
    (selBack R fs mt ifilter (selGoin R fs mt ifilter s)).path = s.path
    ∧ ((selBack R fs mt ifilter (selGoin R fs mt ifilter s)).cur).toNat
        < (selBack R fs mt ifilter (selGoin R fs mt ifilter s)).dents.length
    ∧ ((selBack R fs mt ifilter (selGoin R fs mt ifilter s)).dents.getD
        ((selBack R fs mt ifilter (selGoin R fs mt ifilter s)).cur).toNat dfltEntry).name
        = curName s := by
  have hnh : (curName s).head? ≠ some '/' := by
    cases hnn : curName s with
    | nil => exact absurd hnn hn1
    | cons c cs =>
      intro h
      have hcc : c = '/' := by simpa using h
      refine hn2 ?_
      rw [hnn]
      exact hcc ▸ List.mem_cons_self c cs
  obtain ⟨hhead, hlen2, hslash_np⟩ := mkpath_shape s.path (curName s) hp hn1 hn2
  have hguard : ¬ (mkpath s.path (curName s) = ['/'] ∨ mkpath s.path (curName s) = ['.']
      ∨ '/' ∉ mkpath s.path (curName s)) := by
    rintro (h | h | h)
    · have := congrArg List.length h
      simp at this
      omega
    · rw [h] at hhead
      simp at hhead
    · exact h hslash_np
  have hdir2 : dirnameStr (mkpath s.path (curName s)) = s.path :=
    dirname_mkpath s.path (curName s) hp hroot hn1 hn2
  have hpar2 : fs.listing (dirnameStr (mkpath s.path (curName s))) = some pl := by
    rw [hdir2]
    exact hparent
  rw [selGoin_dir R fs mt ifilter s st cl hne hstat hdir hchild,
    gotoBegin_some R fs mt _ cl pred hchild hR,
    selBack_step R fs mt ifilter _ pl hguard hpar2,
    gotoBegin_some R fs mt _ pl pred hpar2 hR]
  dsimp only
  rw [hdir2]
  have hL : ∃ e ∈ csort (entrycmp mt) (dentfill fs s.path pred),
      mkpath s.path e.name = mkpath s.path (curName s) := by
    obtain ⟨e, he, hname⟩ :=
      dentfillEntries_mem_of_name fs s.path pred pl (curName s) hmem hpred hn3 hn4
    refine ⟨e, ?_, by rw [hname]⟩
    rw [mem_csort]
    unfold dentfill
    rw [hparent]
    exact he
  obtain ⟨j, hj, hgo, hget, hfirst⟩ :=
    dentfindGo_found s.path (mkpath s.path (curName s))
      (csort (entrycmp mt) (dentfill fs s.path pred)) hL 0
  have hdf : dentfind (csort (entrycmp mt) (dentfill fs s.path pred)) s.path
      (some (mkpath s.path (curName s))) = j := by
    simpa [dentfind] using hgo
  have hmemlist : ∀ x : Entry, x ∈ csort (entrycmp mt) (dentfill fs s.path pred) →
      x ∈ dentfillEntries fs s.path pred pl := by
    intro x hx
    have h0 := (mem_csort _ _ x).mp hx
    unfold dentfill at h0
    rw [hparent] at h0
    exact h0
  have hjname : ((csort (entrycmp mt) (dentfill fs s.path pred)).get ⟨j, hj⟩).name
      = curName s := by
    obtain ⟨hmm, _, _, _⟩ := dentfillEntries_mem fs s.path pred pl _
      (hmemlist _ (List.get_mem _ j hj))
    exact mkpath_right_inj (habs _ hmm) hnh hget
  refine ⟨rfl, ?_, ?_⟩
  · rw [hdf]
    simpa using hj
  · rw [hdf]
    have htn : ((j : Nat) : Int).toNat = j := Int.toNat_ofNat j
    rw [htn, List.getD_eq_getElem _ _ hj]
    exact hjname

/-- Evaluation of claim C6 on a concrete run: from `/d` with `sub`
selected, descending into `/d/sub` and ascending puts the cursor back on
`sub`. -/
theorem claim6_witness :
    (selBack wMatchAll wFS false ['.'] (selGoin wMatchAll wFS false ['.'] wGo)).path
      = wGo.path
    ∧ ((selBack wMatchAll wFS false ['.'] (selGoin wMatchAll wFS false ['.'] wGo)).cur).toNat
        < (selBack wMatchAll wFS false ['.']
            (selGoin wMatchAll wFS false ['.'] wGo)).dents.length
    ∧ ((selBack wMatchAll wFS false ['.'] (selGoin wMatchAll wFS false ['.'] wGo)).dents.getD
        ((selBack wMatchAll wFS false ['.']
          (selGoin wMatchAll wFS false ['.'] wGo)).cur).toNat dfltEntry).name
        = curName wGo :=
  claim6_descend_ascend_roundtrip wMatchAll wFS false ['.'] wGo (fun _ => true)
    (wStat FType.dir false 3 0) [] ["sub".data, "a".data]
    (by decide) (by decide) (by decide) (by decide) (by decide) (by decide) (by decide)
    (by decide) (by decide) (by decide) rfl (by decide) (by decide) rfl (by decide)

end Noice

